import Mathlib

/-!
# Metrical — verification of the storage/query core

A shallow embedding of the metrics store in `src/main.rs`:

* `Metric` mirrors the Rust struct (`name`, `key`, `timestamp`, `value`).
  The `f64` value type and its `Display`/`FromStr` implementations are
  external to the repository, so they are abstracted as a type parameter
  `F` together with functions `fToString : F → List Char` (Rust
  `f64::to_string`) and `fParse : List Char → Option F`
  (Rust `str::parse::<f64>()`, `none` modelling `Err`).
* Text is `List Char`; stored keys and values are byte lists
  (`Bytes := List Nat`), related to text by an executable UTF-8 codec
  (`utf8Encode` / `utf8Decode`) mirroring `str::as_bytes` and
  `std::str::from_utf8`.
* The underlying rocksdb handle is external to the repository; it is
  modelled by the contract the specification assigns to it in §1: an
  ordered key-value store with last-write-wins `put` and a byte-prefix
  scan returning matching entries in byte-lexicographic key order.  The
  model is an association list kept sorted by `bytesLt`.
* `addMetric` embeds `Metrical::add_metric`, `getMetrics` embeds
  `Metrical::get_metrics` (including the `parts[2]` indexing, which
  panics rather than errs when fewer than three parts exist — the
  `EntryResult.panic` constructor).
* `createDbDir` embeds `create_db_dir`; `std::fs::create_dir_all` is
  modelled from its documented semantics (success when the directory
  already exists) over an abstract filesystem state.
-/

/-- Convert a string literal to its character list (text is handled as
`List Char` throughout). -/
def chars (s : String) : List Char := s.data

/-! ## Decimal rendering and parsing of unsigned integers

Rust renders a `u64` with `Display` as its unpadded decimal text and
parses with `str::parse::<u64>()`, which accepts an optional leading
`'+'` followed by one or more ASCII digits and fails on overflow. -/

/-- The ASCII digit character for `d < 10`. -/
def digitChar (d : Nat) : Char := Char.ofNat (48 + d)

/-- Is `c` an ASCII digit? -/
def isDigitCh (c : Char) : Bool := 48 ≤ c.toNat && c.toNat ≤ 57

/-- Little-endian decimal digits of `n`, with explicit fuel (the fuel
`n` itself is always sufficient since the digit count of `n` is at most
`n` for `n > 0`). -/
def natDigitsRev : Nat → Nat → List Nat
  | 0, _ => []
  | fuel + 1, n => if n = 0 then [] else n % 10 :: natDigitsRev fuel (n / 10)

/-- The unpadded decimal text of `n` (Rust `u64` `Display`). -/
def natToDecimal (n : Nat) : List Char :=
  if n = 0 then ['0'] else ((natDigitsRev n n).reverse.map digitChar)

/-- Big-endian value of a digit-character list. -/
def charsToNat (l : List Char) : Nat :=
  l.foldl (fun a c => a * 10 + (c.toNat - 48)) 0

/-- Rust `str::parse::<u64>()`: optional leading `'+'`, then one or more
ASCII digits, value below `2^64`. -/
def parseU64 (s : List Char) : Option Nat :=
  let t := match s with
    | '+' :: rest => rest
    | _ => s
  if t ≠ [] ∧ t.all isDigitCh then
    let n := charsToNat t
    if n < 2 ^ 64 then some n else none
  else none

/-! ## UTF-8 codec

`utf8Encode` is the UTF-8 encoding of a character list (Rust
`str::as_bytes`); `utf8Decode` is strict UTF-8 decoding (Rust
`std::str::from_utf8`), rejecting stray continuation bytes, overlong
forms, surrogates and out-of-range code points. -/

/-- Byte strings as stored in the key-value store. -/
abbrev Bytes := List Nat

/-- UTF-8 encoding of a single code point `n` (assumed a valid scalar
value, as every `Char.toNat` is). -/
def encodeCp (n : Nat) : Bytes :=
  if n < 0x80 then [n]
  else if n < 0x800 then [0xC0 + n / 64, 0x80 + n % 64]
  else if n < 0x10000 then
    [0xE0 + n / 4096, 0x80 + n / 64 % 64, 0x80 + n % 64]
  else
    [0xF0 + n / 262144, 0x80 + n / 4096 % 64, 0x80 + n / 64 % 64,
      0x80 + n % 64]

/-- UTF-8 encoding of one character. -/
def encodeChar (c : Char) : Bytes := encodeCp c.toNat

/-- UTF-8 encoding of a character list. -/
def utf8Encode : List Char → Bytes
  | [] => []
  | c :: cs => encodeChar c ++ utf8Encode cs

/-- Is `b` a UTF-8 continuation byte? -/
def contOk (b : Nat) : Bool := 0x80 ≤ b && b < 0xC0

/-- `decodeOne` decodes one UTF-8 scalar value from the front of a byte
list, returning the code point and the remaining bytes.  It mirrors the
validation performed by `std::str::from_utf8`: lead bytes `0xC0`/`0xC1`
and `≥ 0xF5` are rejected, as are overlong forms, surrogate code points
and values above `0x10FFFF`.  `decodeTwo` is its continuation for a
two-byte lead `b1`. -/
def decodeTwo (b1 : Nat) : Bytes → Option (Nat × Bytes)
  | b2 :: t2 =>
    if contOk b2 then some ((b1 - 0xC0) * 64 + (b2 - 0x80), t2)
    else none
  | [] => none

/-- Continuation of `decodeOne` for a three-byte lead `b1`. -/
def decodeThree (b1 : Nat) : Bytes → Option (Nat × Bytes)
  | b2 :: b3 :: t3 =>
    if contOk b2 && contOk b3 then
      let n := (b1 - 0xE0) * 4096 + (b2 - 0x80) * 64 + (b3 - 0x80)
      if 0x800 ≤ n ∧ ¬(0xD800 ≤ n ∧ n < 0xE000) then some (n, t3)
      else none
    else none
  | _ => none

/-- Continuation of `decodeOne` for a four-byte lead `b1`. -/
def decodeFour (b1 : Nat) : Bytes → Option (Nat × Bytes)
  | b2 :: b3 :: b4 :: t4 =>
    if contOk b2 && contOk b3 && contOk b4 then
      let n := (b1 - 0xF0) * 262144 + (b2 - 0x80) * 4096 +
        (b3 - 0x80) * 64 + (b4 - 0x80)
      if 0x10000 ≤ n ∧ n < 0x110000 then some (n, t4) else none
    else none
  | _ => none

/-- Decode one UTF-8 scalar value from the front of a byte list (see the
comment above `decodeTwo`). -/
def decodeOne : Bytes → Option (Nat × Bytes)
  | [] => none
  | b1 :: t1 =>
    if b1 < 0x80 then some (b1, t1)
    else if b1 < 0xC2 then none
    else if b1 < 0xE0 then decodeTwo b1 t1
    else if b1 < 0xF0 then decodeThree b1 t1
    else if b1 < 0xF5 then decodeFour b1 t1
    else none

/-- UTF-8 decoding with explicit fuel (one unit per decoded character;
`bs.length` is always sufficient). -/
def utf8DecodeFuel : Nat → Bytes → Option (List Char)
  | _, [] => some []
  | 0, _ :: _ => none
  | fuel + 1, bs =>
    match decodeOne bs with
    | none => none
    | some (n, rest) =>
      match utf8DecodeFuel fuel rest with
      | none => none
      | some cs => some (Char.ofNat n :: cs)

/-- Strict UTF-8 decoding of a byte list (Rust `std::str::from_utf8`),
`none` on invalid input. -/
def utf8Decode (bs : Bytes) : Option (List Char) :=
  utf8DecodeFuel bs.length bs

/-! ## Splitting on the delimiter

Rust `str::split(':')`: the list of (possibly empty) segments between
delimiter occurrences; an input with `k` delimiters yields `k + 1`
segments. -/

/-- `splitColon l` splits `l` at every `':'` (Rust `key.split(':')`
collected into a `Vec`). -/
def splitColon : List Char → List (List Char)
  | [] => [[]]
  | c :: cs =>
    if c = ':' then [] :: splitColon cs
    else
      match splitColon cs with
      | [] => [[c]]
      | seg :: segs => (c :: seg) :: segs

/-! ## The ordered key-value store

The rocksdb handle is external to the repository; the specification (§1)
assumes it behaves as a crash-consistent ordered store with
`put(key, value)` and a prefix scan returning the entries whose key
starts with the given bytes, in byte-lexicographic key order.  The model
is an association list of byte pairs kept sorted by strict
byte-lexicographic order `bytesLt`. -/

/-- Strict byte-lexicographic order on byte strings (the rocksdb default
comparator). -/
def bytesLt : Bytes → Bytes → Bool
  | _, [] => false
  | [], _ :: _ => true
  | a :: as, b :: bs => a < b || (a = b && bytesLt as bs)

/-- The store contents: an association list of `(key, value)` byte
pairs, kept sorted by `bytesLt` on keys. -/
abbrev Store := List (Bytes × Bytes)

/-- Sortedness invariant of a store: keys strictly increasing in
byte-lexicographic order (hence duplicate-free). -/
def StoreSorted (st : Store) : Prop :=
  List.Pairwise (fun a b => bytesLt a.1 b.1) st

/-- `put st k v`: rocksdb `put`, inserting at the sorted position and
unconditionally overwriting an existing entry with the same key
(last-write-wins). -/
def put (st : Store) (k v : Bytes) : Store :=
  match st with
  | [] => [(k, v)]
  | (k', v') :: rest =>
    if bytesLt k k' then (k, v) :: (k', v') :: rest
    else if k = k' then (k, v) :: rest
    else (k', v') :: put rest k v

/-- The entries whose key starts with the byte string `p`, in store
order: the spec's `get_by_prefix` contract for
`rocksdb::DB::prefix_iterator`. -/
def scanPref (st : Store) (p : Bytes) : List (Bytes × Bytes) :=
  st.filter (fun kv => p.isPrefixOf kv.1)

/-! ## The Metrical data model and operations -/

/-- The `Metric` struct of `src/main.rs`.  `timestamp` is the Rust `u64`
(a natural number below `2^64` wherever that bound matters); `value` is
the abstracted `f64`. -/
structure Metric (F : Type) where
  name : List Char
  key : List Char
  timestamp : Nat
  value : F
deriving DecidableEq, Repr

/-- The distinct failure points of the decode sequence in
`get_metrics`'s loop body. -/
inductive DecodeErr where
  /-- `std::str::from_utf8(&key)` failed. -/
  | keyUtf8
  /-- `std::str::from_utf8(&value)` failed. -/
  | valUtf8
  /-- `parts[2].parse::<u64>()` failed. -/
  | tsParse
  /-- `value.parse::<f64>()` failed. -/
  | valParse
deriving DecidableEq, Repr

/-- Outcome of decoding one scanned entry: a metric, an error
propagated with `?`, or a panic (`parts[2]` indexing out of bounds). -/
inductive EntryResult (F : Type) where
  | ok (m : Metric F)
  | err (e : DecodeErr)
  | panic
deriving DecidableEq, Repr

/-- Outcome of a whole `get_metrics` call. -/
inductive QueryResult (F : Type) where
  | ok (ms : List (Metric F))
  | err (e : DecodeErr)
  | panic
deriving DecidableEq, Repr

/-- The body of the scan loop in `Metrical::get_metrics`, decoding one
`(key, value)` byte pair:
UTF-8-decode the key, UTF-8-decode the value, split the key text on
`':'`, index `parts[2]` (a panic when fewer than three parts exist),
parse it as `u64`, parse the value text as `f64`, and build the
`Metric` from `parts[0]`, `parts[1]` and the two parsed numbers. -/
def decodeEntry {F : Type} (fParse : List Char → Option F)
    (kb vb : Bytes) : EntryResult F :=
  match utf8Decode kb with
  | none => .err .keyUtf8
  | some k =>
    match utf8Decode vb with
    | none => .err .valUtf8
    | some v =>
      let parts := splitColon k
      match parts[2]? with
      | none => .panic
      | some tsText =>
        match parseU64 tsText with
        | none => .err .tsParse
        | some ts =>
          match fParse v with
          | none => .err .valParse
          | some value =>
            .ok ⟨parts.getD 0 [], parts.getD 1 [], ts, value⟩

/-- The scan loop of `Metrical::get_metrics`: decode the entries in
order, aborting the whole query at the first failure (no partial
results). -/
def runScan {F : Type} (fParse : List Char → Option F) :
    List (Bytes × Bytes) → QueryResult F
  | [] => .ok []
  | (kb, vb) :: rest =>
    match decodeEntry fParse kb vb with
    | .panic => .panic
    | .err e => .err e
    | .ok m =>
      match runScan fParse rest with
      | .ok ms => .ok (m :: ms)
      | other => other

/-- The encoded storage key of a metric:
`format!("{}:{}:{}", metric.name, metric.key, metric.timestamp)`
as UTF-8 bytes. -/
def encKey {F : Type} (m : Metric F) : Bytes :=
  utf8Encode (m.name ++ ':' :: m.key ++ ':' :: natToDecimal m.timestamp)

/-- The encoded storage value of a metric: `metric.value.to_string()`
as UTF-8 bytes. -/
def encVal {F : Type} (fToString : F → List Char) (m : Metric F) : Bytes :=
  utf8Encode (fToString m.value)

/-- `Metrical::add_metric`: write the encoded `(key, value)` pair to the
store. -/
def addMetric {F : Type} (fToString : F → List Char) (st : Store)
    (m : Metric F) : Store :=
  put st (encKey m) (encVal fToString m)

/-- The scan bound of `Metrical::get_metrics`:
`format!("{}:{}:", name, key)` as UTF-8 bytes. -/
def queryPref (name key : List Char) : Bytes :=
  utf8Encode (name ++ ':' :: key ++ [':'])

/-- `Metrical::get_metrics`: prefix-scan the store and decode every
scanned entry in order. -/
def getMetrics {F : Type} (fParse : List Char → Option F) (st : Store)
    (name key : List Char) : QueryResult F :=
  runScan fParse (scanPref st (queryPref name key))

/-- Ingest a list of metrics into the empty store, in order. -/
def ingestAll {F : Type} (fToString : F → List Char)
    (l : List (Metric F)) : Store :=
  l.foldl (addMetric fToString) []

/-- Concrete value instantiation used by witnesses and counterexamples:
the abstract `f64` interface instantiated with natural numbers rendered
and parsed in decimal. -/
def fToStringNat : Nat → List Char := natToDecimal

/-- Concrete value parsing for the `Nat` instantiation. -/
def fParseNat : List Char → Option Nat := parseU64

/-! ## Directory bootstrap (`create_db_dir`)

`std::fs::create_dir_all` and `Path::parent` are external to the
repository; they are modelled over an abstract filesystem state from
their documented semantics (creation succeeds and is a no-op when the
directory already exists; a denied or otherwise failing directory is an
error).  `create_db_dir` itself is translated from `src/main.rs`. -/

/-- Abstract filesystem state: which directories exist, which deny
creation, and which fail with some other I/O error. -/
structure FsState where
  existing : List (List Char)
  denied : List (List Char)
  broken : List (List Char)
deriving DecidableEq

/-- The error kinds `create_db_dir` matches on
(`std::io::ErrorKind`). -/
inductive DirOutcome where
  | ok
  | alreadyExists
  | permissionDenied
  | otherErr
deriving DecidableEq, Repr

/-- Modelled from the spec: `std::fs::create_dir_all` — succeeds without
change when the directory already exists, reports a permission error for
a denied directory, some other I/O error for a broken one, and otherwise
creates the directory. -/
def createDirAll (fs : FsState) (d : List Char) : FsState × DirOutcome :=
  if d ∈ fs.denied then (fs, .permissionDenied)
  else if d ∈ fs.broken then (fs, .otherErr)
  else if d ∈ fs.existing then (fs, .ok)
  else ({ fs with existing := d :: fs.existing }, .ok)

/-- A filesystem path as `create_db_dir` consumes it: only its optional
parent directory matters (`Path::parent`). -/
structure PathM where
  parent : Option (List Char)

/-- `create_db_dir` from `src/main.rs`: take the parent directory
(erring when there is none), call `create_dir_all`, treat success and
`AlreadyExists` as success, map `PermissionDenied` and any other error
to distinct messages. -/
def createDbDir (fs : FsState) (db : PathM) :
    FsState × Except (List Char) Unit :=
  match db.parent with
  | none => (fs, .error (chars "Failed to get the data directory"))
  | some dir =>
    match createDirAll fs dir with
    | (fs', .ok) => (fs', .ok ())
    | (fs', .alreadyExists) => (fs', .ok ())
    | (fs', .permissionDenied) =>
      (fs', .error (chars "Permission denied to create the data directory"))
    | (fs', .otherErr) =>
      (fs', .error (chars "Miscellaneous error creating the data directory"))

/-! ## Lemmas: decimal rendering and parsing -/

theorem natDigitsRev_fuel (f1 : Nat) : ∀ f2 n, n ≤ f1 → n ≤ f2 →
    natDigitsRev f1 n = natDigitsRev f2 n := by
  induction f1 with
  | zero =>
    intro f2 n h1 _
    interval_cases n
    cases f2 <;> simp [natDigitsRev]
  | succ f1 ih =>
    intro f2 n h1 h2
    by_cases hn : n = 0
    · subst hn
      cases f2 <;> simp [natDigitsRev]
    · have hf2 : ∃ f2', f2 = f2' + 1 := ⟨f2 - 1, by omega⟩
      obtain ⟨f2', rfl⟩ := hf2
      have hdiv : n / 10 < n := Nat.div_lt_self (by omega) (by norm_num)
      simp only [natDigitsRev, hn, if_false]
      rw [ih f2' (n / 10) (by omega) (by omega)]

theorem natDigitsRev_lt_ten (f : Nat) : ∀ n d, d ∈ natDigitsRev f n → d < 10 := by
  induction f with
  | zero => intro n d h; simp [natDigitsRev] at h
  | succ f ih =>
    intro n d h
    simp only [natDigitsRev] at h
    split at h
    · simp at h
    · rcases List.mem_cons.mp h with h | h
      · omega
      · exact ih _ _ h

theorem digitChar_toNat (d : Nat) (h : d < 10) : (digitChar d).toNat = 48 + d := by
  have hv : (48 + d).isValidChar := Or.inl (by omega)
  simp only [digitChar, Char.ofNat, hv, dif_pos]
  rfl

theorem charsToNat_append_digit (l : List Char) (c : Char) :
    charsToNat (l ++ [c]) = charsToNat l * 10 + (c.toNat - 48) := by
  simp [charsToNat, List.foldl_append]

theorem charsToNat_digits (f : Nat) : ∀ n, n ≤ f →
    charsToNat ((natDigitsRev f n).reverse.map digitChar) = n := by
  induction f with
  | zero =>
    intro n h
    interval_cases n
    simp [natDigitsRev, charsToNat]
  | succ f ih =>
    intro n h
    by_cases hn : n = 0
    · subst hn; simp [natDigitsRev, charsToNat]
    · have hdiv : n / 10 < n := Nat.div_lt_self (by omega) (by norm_num)
      simp only [natDigitsRev, hn, if_false, List.reverse_cons, List.map_append,
        List.map_cons, List.map_nil]
      rw [charsToNat_append_digit, ih (n / 10) (by omega),
        digitChar_toNat (n % 10) (by omega)]
      omega

theorem isDigitCh_digitChar (d : Nat) (h : d < 10) : isDigitCh (digitChar d) = true := by
  simp [isDigitCh, digitChar_toNat d h]
  omega

theorem natToDecimal_ne_nil (n : Nat) : natToDecimal n ≠ [] := by
  unfold natToDecimal
  split
  · simp
  · intro h
    simp only [List.map_eq_nil_iff, List.reverse_eq_nil_iff] at h
    rename_i hn
    have hf : ∃ f, n = f + 1 := ⟨n - 1, by omega⟩
    obtain ⟨f, rfl⟩ := hf
    simp [natDigitsRev, hn] at h

theorem natToDecimal_all_digits (n : Nat) :
    (natToDecimal n).all isDigitCh = true := by
  unfold natToDecimal
  split
  · decide
  · rw [List.all_eq_true]
    intro c hc
    simp only [List.mem_map, List.mem_reverse] at hc
    obtain ⟨d, hd, rfl⟩ := hc
    exact isDigitCh_digitChar d (natDigitsRev_lt_ten n n d hd)

theorem digit_toNat_le (c : Char) (h : isDigitCh c = true) :
    48 ≤ c.toNat ∧ c.toNat ≤ 57 := by
  simp [isDigitCh] at h
  exact h

theorem colon_not_mem_natToDecimal (n : Nat) : ':' ∉ natToDecimal n := by
  intro hmem
  have hall := natToDecimal_all_digits n
  rw [List.all_eq_true] at hall
  have := digit_toNat_le ':' (hall ':' hmem)
  revert this
  decide

theorem parseU64_of_digits (s : List Char) (h0 : s ≠ [])
    (h1 : s.all isDigitCh = true) (h2 : charsToNat s < 2 ^ 64) :
    parseU64 s = some (charsToNat s) := by
  obtain ⟨c, cs, rfl⟩ := List.exists_cons_of_ne_nil h0
  have hc : isDigitCh c = true := by
    rw [List.all_eq_true] at h1
    exact h1 c (by simp)
  have hcp : c ≠ '+' := by
    intro h
    subst h
    revert hc
    decide
  unfold parseU64
  have hmatch : (match c :: cs with
      | '+' :: rest => rest
      | _ => c :: cs) = c :: cs := by
    split
    · rename_i heq
      exfalso
      apply hcp
      injection heq
    · rfl
  have h2' : charsToNat (c :: cs) < 18446744073709551616 := by
    have : (2 : Nat) ^ 64 = 18446744073709551616 := by norm_num
    omega
  rw [hmatch]
  simp [h1, h2']

theorem parseU64_natToDecimal (n : Nat) (h : n < 2 ^ 64) :
    parseU64 (natToDecimal n) = some n := by
  have hval : charsToNat (natToDecimal n) = n := by
    unfold natToDecimal
    split
    · rename_i h0; subst h0; decide
    · exact charsToNat_digits n n (le_refl n)
  rw [parseU64_of_digits _ (natToDecimal_ne_nil n) (natToDecimal_all_digits n)
    (by rw [hval]; exact h), hval]

/-! ## Lemmas: UTF-8 codec -/

theorem decodeOne_encodeCp (n : Nat) (h : n.isValidChar) (rest : Bytes) :
    decodeOne (encodeCp n ++ rest) = some (n, rest) := by
  have hlt : n < 0x110000 := by
    rcases h with h | h
    · omega
    · omega
  unfold encodeCp
  by_cases h1 : n < 0x80
  · rw [if_pos h1]
    simp only [List.cons_append, List.nil_append, decodeOne, if_pos h1]
  · rw [if_neg h1]
    by_cases h2 : n < 0x800
    · rw [if_pos h2]
      simp only [List.cons_append, List.nil_append, decodeOne]
      rw [if_neg (by omega), if_neg (by omega), if_pos (by omega)]
      simp only [decodeTwo, contOk]
      rw [if_pos (by simp; omega)]
      have : (0xC0 + n / 64 - 0xC0) * 64 + (0x80 + n % 64 - 0x80) = n := by
        omega
      rw [this]
    · rw [if_neg h2]
      by_cases h3 : n < 0x10000
      · rw [if_pos h3]
        simp only [List.cons_append, List.nil_append, decodeOne]
        rw [if_neg (by omega), if_neg (by omega), if_neg (by omega),
          if_pos (by omega)]
        simp only [decodeThree, contOk]
        rw [if_pos (by simp; omega)]
        have hval : (0xE0 + n / 4096 - 0xE0) * 4096 +
            (0x80 + n / 64 % 64 - 0x80) * 64 + (0x80 + n % 64 - 0x80) = n := by
          omega
        rw [hval, if_pos]
        constructor
        · omega
        · rcases h with h | h
          · omega
          · omega
      · rw [if_neg h3]
        simp only [List.cons_append, List.nil_append, decodeOne]
        rw [if_neg (by omega), if_neg (by omega), if_neg (by omega),
          if_neg (by omega), if_pos (by omega)]
        simp only [decodeFour, contOk]
        rw [if_pos (by simp; omega)]
        have hval : (0xF0 + n / 262144 - 0xF0) * 262144 +
            (0x80 + n / 4096 % 64 - 0x80) * 4096 +
            (0x80 + n / 64 % 64 - 0x80) * 64 + (0x80 + n % 64 - 0x80) = n := by
          omega
        rw [hval, if_pos (by omega)]

theorem decodeTwo_sound (b1 : Nat) (t1 : Bytes) (n : Nat) (rest : Bytes)
    (hb1 : 0xC2 ≤ b1) (hb1' : b1 < 0xE0)
    (h : decodeTwo b1 t1 = some (n, rest)) :
    n.isValidChar ∧ encodeCp n ++ rest = b1 :: t1 := by
  match t1 with
  | [] => simp [decodeTwo] at h
  | b2 :: t2 =>
    simp only [decodeTwo] at h
    split_ifs at h with hc
    simp only [contOk, Bool.and_eq_true, decide_eq_true_eq] at hc
    injection h with h
    injection h with hn hrest
    subst hn
    subst hrest
    have hnr : 0x80 ≤ (b1 - 0xC0) * 64 + (b2 - 0x80) ∧
        (b1 - 0xC0) * 64 + (b2 - 0x80) < 0x800 := by omega
    refine ⟨Or.inl (by omega), ?_⟩
    unfold encodeCp
    rw [if_neg (by omega), if_pos (by omega)]
    simp only [List.cons_append, List.nil_append, List.cons.injEq]
    refine ⟨by omega, by omega, trivial⟩

theorem decodeThree_sound (b1 : Nat) (t1 : Bytes) (n : Nat) (rest : Bytes)
    (hb1 : 0xE0 ≤ b1) (hb1' : b1 < 0xF0)
    (h : decodeThree b1 t1 = some (n, rest)) :
    n.isValidChar ∧ encodeCp n ++ rest = b1 :: t1 := by
  match t1 with
  | [] => simp [decodeThree] at h
  | [b2] => simp [decodeThree] at h
  | b2 :: b3 :: t3 =>
    simp only [decodeThree] at h
    split_ifs at h with hc hr
    simp only [contOk, Bool.and_eq_true, decide_eq_true_eq] at hc
    injection h with h
    injection h with hn hrest
    subst hn
    subst hrest
    have hnr : (b1 - 0xE0) * 4096 + (b2 - 0x80) * 64 + (b3 - 0x80) <
        0x10000 := by omega
    refine ⟨by rcases hr with ⟨hr1, hr2⟩; unfold Nat.isValidChar; omega, ?_⟩
    unfold encodeCp
    rw [if_neg (by omega), if_neg (by omega), if_pos (by omega)]
    simp only [List.cons_append, List.nil_append, List.cons.injEq]
    refine ⟨by omega, by omega, by omega, trivial⟩

theorem decodeFour_sound (b1 : Nat) (t1 : Bytes) (n : Nat) (rest : Bytes)
    (hb1 : 0xF0 ≤ b1) (hb1' : b1 < 0xF5)
    (h : decodeFour b1 t1 = some (n, rest)) :
    n.isValidChar ∧ encodeCp n ++ rest = b1 :: t1 := by
  match t1 with
  | [] => simp [decodeFour] at h
  | [b2] => simp [decodeFour] at h
  | [b2, b3] => simp [decodeFour] at h
  | b2 :: b3 :: b4 :: t4 =>
    simp only [decodeFour] at h
    split_ifs at h with hc hr
    simp only [contOk, Bool.and_eq_true, decide_eq_true_eq] at hc
    injection h with h
    injection h with hn hrest
    subst hn
    subst hrest
    refine ⟨by unfold Nat.isValidChar; omega, ?_⟩
    unfold encodeCp
    rw [if_neg (by omega), if_neg (by omega), if_neg (by omega)]
    simp only [List.cons_append, List.nil_append, List.cons.injEq]
    refine ⟨by omega, by omega, by omega, by omega, trivial⟩

theorem decodeOne_sound (bs : Bytes) (n : Nat) (rest : Bytes)
    (h : decodeOne bs = some (n, rest)) :
    n.isValidChar ∧ encodeCp n ++ rest = bs := by
  match bs with
  | [] => simp [decodeOne] at h
  | b1 :: t1 =>
    simp only [decodeOne] at h
    split_ifs at h with h1 h2 h3 h4 h5
    · injection h with h
      injection h with hn hrest
      subst hn
      subst hrest
      refine ⟨Or.inl (by omega), ?_⟩
      unfold encodeCp
      rw [if_pos h1]
      simp
    · exact decodeTwo_sound b1 t1 n rest (by omega) h3 h
    · exact decodeThree_sound b1 t1 n rest (by omega) h4 h
    · exact decodeFour_sound b1 t1 n rest (by omega) h5 h

theorem encodeCp_ne_nil (n : Nat) : encodeCp n ≠ [] := by
  unfold encodeCp
  split_ifs <;> simp

theorem decodeOne_length (bs : Bytes) (n : Nat) (rest : Bytes)
    (h : decodeOne bs = some (n, rest)) : rest.length < bs.length := by
  obtain ⟨-, henc⟩ := decodeOne_sound bs n rest h
  rw [← henc, List.length_append]
  have := encodeCp_ne_nil n
  cases he : encodeCp n
  · exact absurd he this
  · simp [he]

theorem utf8DecodeFuel_irrel (f1 : Nat) : ∀ f2 bs, bs.length ≤ f1 →
    bs.length ≤ f2 → utf8DecodeFuel f1 bs = utf8DecodeFuel f2 bs := by
  induction f1 with
  | zero =>
    intro f2 bs h1 _
    have : bs = [] := by
      cases bs
      · rfl
      · simp at h1
    subst this
    cases f2 <;> simp [utf8DecodeFuel]
  | succ f1 ih =>
    intro f2 bs h1 h2
    match bs with
    | [] => cases f2 <;> simp [utf8DecodeFuel]
    | b :: t =>
      have hf2 : ∃ f2', f2 = f2' + 1 := ⟨f2 - 1, by simp at h2; omega⟩
      obtain ⟨f2', rfl⟩ := hf2
      cases hd : decodeOne (b :: t) with
      | none => simp only [utf8DecodeFuel, hd]
      | some p =>
        obtain ⟨n, rest⟩ := p
        have hlen := decodeOne_length _ _ _ hd
        simp only [List.length_cons] at hlen h1 h2
        simp only [utf8DecodeFuel, hd]
        rw [ih f2' rest (by omega) (by omega)]

theorem utf8Decode_nil : utf8Decode [] = some [] := rfl

theorem utf8Decode_step (bs : Bytes) (n : Nat) (rest : Bytes)
    (h : decodeOne bs = some (n, rest)) :
    utf8Decode bs =
      match utf8Decode rest with
      | none => none
      | some cs => some (Char.ofNat n :: cs) := by
  have hne : bs ≠ [] := by
    intro he
    subst he
    simp [decodeOne] at h
  obtain ⟨b, t, rfl⟩ := List.exists_cons_of_ne_nil hne
  have hlen := decodeOne_length _ _ _ h
  simp only [List.length_cons] at hlen
  unfold utf8Decode
  simp only [List.length_cons, utf8DecodeFuel, h]
  rw [utf8DecodeFuel_irrel t.length rest.length rest (by omega) (le_refl _)]

theorem utf8Decode_stuck (bs : Bytes) (hne : bs ≠ [])
    (h : decodeOne bs = none) : utf8Decode bs = none := by
  obtain ⟨b, t, rfl⟩ := List.exists_cons_of_ne_nil hne
  unfold utf8Decode
  simp only [List.length_cons, utf8DecodeFuel, h]

theorem char_ofNat_toNat (c : Char) : Char.ofNat c.toNat = c := by
  apply Char.ext
  have hv : c.toNat.isValidChar := c.valid
  simp only [Char.ofNat, hv, dif_pos]
  apply UInt32.ext
  rfl

theorem char_toNat_ofNat (n : Nat) (h : n.isValidChar) :
    (Char.ofNat n).toNat = n := by
  simp only [Char.ofNat, h, dif_pos]
  rfl

theorem utf8Decode_encode (s : List Char) :
    utf8Decode (utf8Encode s) = some s := by
  induction s with
  | nil => rfl
  | cons c cs ih =>
    have hd : decodeOne (utf8Encode (c :: cs)) = some (c.toNat, utf8Encode cs) := by
      simp only [utf8Encode, encodeChar]
      exact decodeOne_encodeCp c.toNat c.valid (utf8Encode cs)
    rw [utf8Decode_step _ _ _ hd, ih, char_ofNat_toNat]

theorem utf8Decode_sound (k : Nat) : ∀ bs s, bs.length ≤ k →
    utf8Decode bs = some s → utf8Encode s = bs := by
  induction k with
  | zero =>
    intro bs s h1 h2
    have : bs = [] := by
      cases bs
      · rfl
      · simp at h1
    subst this
    simp only [utf8Decode_nil, Option.some.injEq] at h2
    subst h2
    rfl
  | succ k ih =>
    intro bs s h1 h2
    match bs with
    | [] =>
      simp only [utf8Decode_nil, Option.some.injEq] at h2
      subst h2
      rfl
    | b :: t =>
      cases hd : decodeOne (b :: t) with
      | none =>
        rw [utf8Decode_stuck _ (by simp) hd] at h2
        exact absurd h2 (by simp)
      | some p =>
        obtain ⟨n, rest⟩ := p
        rw [utf8Decode_step _ _ _ hd] at h2
        cases hr : utf8Decode rest with
        | none => rw [hr] at h2; exact absurd h2 (by simp)
        | some cs =>
          rw [hr] at h2
          injection h2 with h2
          subst h2
          obtain ⟨hval, henc⟩ := decodeOne_sound _ _ _ hd
          have hlen := decodeOne_length _ _ _ hd
          simp only [List.length_cons] at hlen h1
          rw [utf8Encode]
          rw [ih rest cs (by omega) hr, encodeChar, char_toNat_ofNat n hval,
            henc]

theorem utf8Encode_append (a b : List Char) :
    utf8Encode (a ++ b) = utf8Encode a ++ utf8Encode b := by
  induction a with
  | nil => rfl
  | cons c cs ih => simp [utf8Encode, ih]

theorem encodeChar_inj_head (c1 c2 : Char) (r1 r2 : Bytes)
    (h : encodeChar c1 ++ r1 = encodeChar c2 ++ r2) : c1 = c2 ∧ r1 = r2 := by
  have h1 : decodeOne (encodeChar c1 ++ r1) = some (c1.toNat, r1) :=
    decodeOne_encodeCp c1.toNat c1.valid r1
  have h2 : decodeOne (encodeChar c2 ++ r2) = some (c2.toNat, r2) :=
    decodeOne_encodeCp c2.toNat c2.valid r2
  rw [h] at h1
  rw [h2] at h1
  injection h1 with h1
  injection h1 with hn hr
  exact ⟨(Char.ext (UInt32.ext hn)).symm, hr.symm⟩

theorem utf8Encode_pref (p : List Char) : ∀ k, utf8Encode p <+: utf8Encode k →
    p <+: k := by
  induction p with
  | nil => intro k _; exact List.nil_prefix
  | cons c cs ih =>
    intro k hp
    match k with
    | [] =>
      obtain ⟨t, ht⟩ := hp
      simp only [utf8Encode] at ht
      have : encodeChar c ≠ [] := encodeCp_ne_nil c.toNat
      cases he : encodeChar c
      · exact absurd he this
      · rw [he] at ht; simp at ht
    | d :: ds =>
      obtain ⟨t, ht⟩ := hp
      simp only [utf8Encode, List.append_assoc] at ht
      obtain ⟨hc, hr⟩ := encodeChar_inj_head c d _ _ ht
      subst hc
      have : utf8Encode cs <+: utf8Encode ds := ⟨t, hr⟩
      exact List.cons_prefix_cons.mpr ⟨rfl, ih ds this⟩

/-! ## Lemmas: splitting on the delimiter -/

theorem splitColon_ne_nil (l : List Char) : splitColon l ≠ [] := by
  match l with
  | [] => simp [splitColon]
  | c :: cs =>
    simp only [splitColon]
    split_ifs
    · simp
    · cases splitColon cs <;> simp

theorem splitColon_no_colon (l : List Char) (h : ':' ∉ l) :
    splitColon l = [l] := by
  induction l with
  | nil => rfl
  | cons c cs ih =>
    have hc : c ≠ ':' := fun he => h (he ▸ List.mem_cons_self c cs)
    have hcs : ':' ∉ cs := fun hm => h (List.mem_cons_of_mem c hm)
    simp only [splitColon, if_neg hc, ih hcs]

theorem splitColon_append (a : List Char) (rest : List Char) (h : ':' ∉ a) :
    splitColon (a ++ ':' :: rest) = a :: splitColon rest := by
  induction a with
  | nil => simp [splitColon]
  | cons c cs ih =>
    have hc : c ≠ ':' := fun he => h (he ▸ List.mem_cons_self c cs)
    have hcs : ':' ∉ cs := fun hm => h (List.mem_cons_of_mem c hm)
    simp only [List.cons_append, splitColon, if_neg hc, List.append_eq]
    rw [ih hcs]

theorem splitColon_length (l : List Char) :
    (splitColon l).length = l.count ':' + 1 := by
  induction l with
  | nil => simp [splitColon]
  | cons c cs ih =>
    simp only [splitColon]
    split_ifs with hc
    · subst hc
      simp [List.count_cons, ih]
    · cases hsp : splitColon cs with
      | nil => exact absurd hsp (splitColon_ne_nil cs)
      | cons seg segs =>
        rw [hsp] at ih
        simp only [List.length_cons] at ih ⊢
        rw [List.count_cons]
        simp [hc, ih]

/-! ## Lemmas: the ordered store -/

theorem bytesLt_irrefl (a : Bytes) : bytesLt a a = false := by
  induction a with
  | nil => rfl
  | cons x xs ih => simp [bytesLt, ih]

theorem bytesLt_trans (a : Bytes) : ∀ b c, bytesLt a b = true →
    bytesLt b c = true → bytesLt a c = true := by
  induction a with
  | nil =>
    intro b c hab hbc
    cases b with
    | nil => simp [bytesLt] at hab
    | cons y ys =>
      cases c with
      | nil => simp [bytesLt] at hbc
      | cons z zs => simp [bytesLt]
  | cons x xs ih =>
    intro b c hab hbc
    cases b with
    | nil => simp [bytesLt] at hab
    | cons y ys =>
      cases c with
      | nil => simp [bytesLt] at hbc
      | cons z zs =>
        simp only [bytesLt, Bool.or_eq_true, Bool.and_eq_true,
          decide_eq_true_eq] at hab hbc ⊢
        rcases hab with hab | ⟨hab1, hab2⟩
        · rcases hbc with hbc | ⟨hbc1, hbc2⟩
          · exact Or.inl (by omega)
          · exact Or.inl (by omega)
        · rcases hbc with hbc | ⟨hbc1, hbc2⟩
          · exact Or.inl (by omega)
          · exact Or.inr ⟨by omega, ih ys zs hab2 hbc2⟩

theorem bytesLt_total (a : Bytes) : ∀ b, bytesLt a b = true ∨ a = b ∨
    bytesLt b a = true := by
  induction a with
  | nil =>
    intro b
    cases b with
    | nil => exact Or.inr (Or.inl rfl)
    | cons y ys => exact Or.inl (by simp [bytesLt])
  | cons x xs ih =>
    intro b
    cases b with
    | nil => exact Or.inr (Or.inr (by simp [bytesLt]))
    | cons y ys =>
      rcases Nat.lt_trichotomy x y with hxy | hxy | hxy
      · exact Or.inl (by simp [bytesLt]; omega)
      · subst hxy
        rcases ih ys with h | h | h
        · exact Or.inl (by simp [bytesLt, h])
        · exact Or.inr (Or.inl (by rw [h]))
        · exact Or.inr (Or.inr (by simp [bytesLt, h]))
      · exact Or.inr (Or.inr (by simp [bytesLt]; omega))

theorem mem_put_self (st : Store) (k v : Bytes) : (k, v) ∈ put st k v := by
  induction st with
  | nil => simp [put]
  | cons kv rest ih =>
    obtain ⟨k', v'⟩ := kv
    simp only [put]
    split_ifs with h1 h2
    · simp
    · simp
    · exact List.mem_cons_of_mem _ ih

theorem mem_put (st : Store) (k v : Bytes) (kv : Bytes × Bytes)
    (h : kv ∈ put st k v) : kv = (k, v) ∨ kv ∈ st := by
  induction st with
  | nil => simpa [put] using h
  | cons kv' rest ih =>
    obtain ⟨k', v'⟩ := kv'
    simp only [put] at h
    split_ifs at h with h1 h2
    · rcases List.mem_cons.mp h with h | h
      · exact Or.inl h
      · exact Or.inr h
    · rcases List.mem_cons.mp h with h | h
      · exact Or.inl h
      · exact Or.inr (List.mem_cons_of_mem _ h)
    · rcases List.mem_cons.mp h with h | h
      · exact Or.inr (h ▸ List.mem_cons_self _ _)
      · rcases ih h with h | h
        · exact Or.inl h
        · exact Or.inr (List.mem_cons_of_mem _ h)

theorem put_sorted (st : Store) (k v : Bytes) (hs : StoreSorted st) :
    StoreSorted (put st k v) := by
  induction st with
  | nil => simp [put, StoreSorted]
  | cons kv' rest ih =>
    obtain ⟨k', v'⟩ := kv'
    rw [StoreSorted, List.pairwise_cons] at hs
    obtain ⟨hhead, hrest⟩ := hs
    simp only [put]
    split_ifs with h1 h2
    · rw [StoreSorted, List.pairwise_cons]
      constructor
      · intro kv hkv
        rcases List.mem_cons.mp hkv with h | h
        · subst h; exact h1
        · exact bytesLt_trans k k' kv.1 h1 (hhead kv h)
      · rw [StoreSorted, List.pairwise_cons] at *
        exact ⟨hhead, hrest⟩
    · subst h2
      rw [StoreSorted, List.pairwise_cons]
      exact ⟨hhead, hrest⟩
    · rw [StoreSorted, List.pairwise_cons]
      constructor
      · intro kv hkv
        rcases mem_put rest k v kv hkv with h | h
        · rw [h]
          rcases bytesLt_total k' k with ht | ht | ht
          · exact ht
          · exact absurd ht.symm h2
          · exact absurd ht h1
        · exact hhead kv h
      · exact ih hrest

theorem put_put_same (st : Store) (k v1 v2 : Bytes) :
    put (put st k v1) k v2 = put st k v2 := by
  induction st with
  | nil => simp [put, bytesLt_irrefl]
  | cons kv' rest ih =>
    obtain ⟨k', v'⟩ := kv'
    simp only [put]
    split_ifs with h1 h2
    · simp [put, bytesLt_irrefl, h1]
    · subst h2
      simp [put, bytesLt_irrefl]
    · simp only [put, if_neg h1, if_neg h2, ih]

theorem countP_put (st : Store) (k v : Bytes) (hs : StoreSorted st) :
    (put st k v).countP (fun kv => kv.1 == k) = 1 := by
  induction st with
  | nil => simp [put, List.countP_cons]
  | cons kv' rest ih =>
    obtain ⟨k', v'⟩ := kv'
    rw [StoreSorted, List.pairwise_cons] at hs
    obtain ⟨hhead, hrest⟩ := hs
    have hzero : ∀ l : Store, (∀ kv ∈ l, kv.1 ≠ k) →
        l.countP (fun kv => kv.1 == k) = 0 := by
      intro l hl
      rw [List.countP_eq_zero]
      intro kv hkv
      simp only [beq_iff_eq]
      exact hl kv hkv
    simp only [put]
    split_ifs with h1 h2
    · rw [List.countP_cons, List.countP_cons]
      have hk' : k' ≠ k := by
        intro he
        subst he
        rw [bytesLt_irrefl] at h1
        exact absurd h1 (by simp)
      have : rest.countP (fun kv => kv.1 == k) = 0 := by
        apply hzero
        intro kv hkv
        intro he
        have := hhead kv hkv
        rw [he] at this
        have h3 := bytesLt_trans k k' k h1 this
        rw [bytesLt_irrefl] at h3
        exact absurd h3 (by simp)
      simp [this, hk']
    · subst h2
      rw [List.countP_cons]
      have : rest.countP (fun kv => kv.1 == k) = 0 := by
        apply hzero
        intro kv hkv
        intro he
        have := hhead kv hkv
        rw [he, bytesLt_irrefl] at this
        exact absurd this (by simp)
      simp [this]
    · rw [List.countP_cons]
      have hk' : ¬(k' == k) := by
        simp only [beq_iff_eq]
        intro he
        exact h2 he.symm
      simp [hk', ih hrest]

theorem bytesLt_append_cancel (p : Bytes) (a b : Bytes) :
    bytesLt (p ++ a) (p ++ b) = bytesLt a b := by
  induction p with
  | nil => rfl
  | cons x xs ih => simp [bytesLt, ih]

/-! ## Lemmas: the scan loop -/

theorem runScan_ok_mem {F : Type} (fParse : List Char → Option F) :
    ∀ l ms, runScan fParse l = .ok ms →
    ∀ kb vb m, (kb, vb) ∈ l → decodeEntry fParse kb vb = .ok m → m ∈ ms := by
  intro l
  induction l with
  | nil =>
    intro ms _ kb vb m hmem _
    simp at hmem
  | cons e rest ih =>
    intro ms hrun kb vb m hmem hdec
    obtain ⟨kb', vb'⟩ := e
    simp only [runScan] at hrun
    cases hd : decodeEntry fParse kb' vb' with
    | panic => rw [hd] at hrun; exact absurd hrun (by simp)
    | err e0 => rw [hd] at hrun; exact absurd hrun (by simp)
    | ok m0 =>
      rw [hd] at hrun
      cases hr : runScan fParse rest with
      | ok ms0 =>
        rw [hr] at hrun
        injection hrun with hrun
        subst hrun
        rcases List.mem_cons.mp hmem with h | h
        · injection h with h1 h2
          subst h1
          subst h2
          rw [hdec] at hd
          injection hd with hd
          subst hd
          exact List.mem_cons_self _ _
        · exact List.mem_cons_of_mem _ (ih ms0 hr kb vb m h hdec)
      | err e0 => rw [hr] at hrun; exact absurd hrun (by simp)
      | panic => rw [hr] at hrun; exact absurd hrun (by simp)

theorem runScan_ok_all {F : Type} (fParse : List Char → Option F) :
    ∀ l ms, runScan fParse l = .ok ms →
    List.Forall₂ (fun e m => decodeEntry fParse e.1 e.2 = .ok m) l ms := by
  intro l
  induction l with
  | nil =>
    intro ms hrun
    simp only [runScan] at hrun
    injection hrun with hrun
    subst hrun
    exact List.Forall₂.nil
  | cons e rest ih =>
    intro ms hrun
    obtain ⟨kb', vb'⟩ := e
    simp only [runScan] at hrun
    cases hd : decodeEntry fParse kb' vb' with
    | panic => rw [hd] at hrun; exact absurd hrun (by simp)
    | err e0 => rw [hd] at hrun; exact absurd hrun (by simp)
    | ok m0 =>
      rw [hd] at hrun
      cases hr : runScan fParse rest with
      | ok ms0 =>
        rw [hr] at hrun
        injection hrun with hrun
        subst hrun
        exact List.Forall₂.cons hd (ih ms0 hr)
      | err e0 => rw [hr] at hrun; exact absurd hrun (by simp)
      | panic => rw [hr] at hrun; exact absurd hrun (by simp)

theorem runScan_all_ok {F : Type} (fParse : List Char → Option F) :
    ∀ l, (∀ e ∈ l, ∃ m, decodeEntry fParse e.1 e.2 = .ok m) →
    ∃ ms, runScan fParse l = .ok ms := by
  intro l
  induction l with
  | nil => intro _; exact ⟨[], rfl⟩
  | cons e rest ih =>
    intro h
    obtain ⟨kb', vb'⟩ := e
    obtain ⟨m0, hm0⟩ := h (kb', vb') (List.mem_cons_self _ _)
    obtain ⟨ms0, hms0⟩ := ih (fun e he => h e (List.mem_cons_of_mem _ he))
    refine ⟨m0 :: ms0, ?_⟩
    simp only [runScan, hm0, hms0]

theorem runScan_err {F : Type} (fParse : List Char → Option F) :
    ∀ l, (∀ e ∈ l, decodeEntry fParse e.1 e.2 ≠ .panic) →
    ∀ e0 er, e0 ∈ l → decodeEntry fParse e0.1 e0.2 = .err er →
    ∃ er', runScan fParse l = .err er' := by
  intro l
  induction l with
  | nil => intro _ e0 er hmem _; simp at hmem
  | cons e rest ih =>
    intro hnp e0 er hmem herr
    obtain ⟨kb', vb'⟩ := e
    cases hd : decodeEntry fParse kb' vb' with
    | panic => exact absurd hd (hnp (kb', vb') (List.mem_cons_self _ _))
    | err e1 => exact ⟨e1, by simp only [runScan, hd]⟩
    | ok m0 =>
      have h0 : e0 ∈ rest := by
        rcases List.mem_cons.mp hmem with h | h
        · subst h
          rw [herr] at hd
          exact absurd hd (by simp)
        · exact h
      obtain ⟨er', her'⟩ :=
        ih (fun e he => hnp e (List.mem_cons_of_mem _ he)) e0 er h0 herr
      refine ⟨er', ?_⟩
      simp only [runScan, hd, her']

theorem forall₂_mem_right {α β : Type} (R : α → β → Prop) :
    ∀ l ms, List.Forall₂ R l ms → ∀ b ∈ ms, ∃ a ∈ l, R a b := by
  intro l ms h
  induction h with
  | nil => intro b hb; simp at hb
  | cons hab htail ih =>
    intro b hb
    rcases List.mem_cons.mp hb with h | h
    · subst h
      exact ⟨_, List.mem_cons_self _ _, hab⟩
    · obtain ⟨a, ha, hr⟩ := ih b h
      exact ⟨a, List.mem_cons_of_mem _ ha, hr⟩

theorem forall₂_pairwise {α β : Type} (R : α → β → Prop) (P : α → α → Prop)
    (Q : β → β → Prop)
    (himp : ∀ a b a' b', R a a' → R b b' → P a b → Q a' b') :
    ∀ l ms, List.Forall₂ R l ms → l.Pairwise P → ms.Pairwise Q := by
  intro l ms h
  induction h with
  | nil => intro _; exact List.Pairwise.nil
  | cons hab htail ih =>
    intro hp
    rw [List.pairwise_cons] at hp
    obtain ⟨hhead, htl⟩ := hp
    rw [List.pairwise_cons]
    constructor
    · intro b' hb'
      obtain ⟨a', ha', hr⟩ := forall₂_mem_right R _ _ htail b' hb'
      exact himp _ _ _ _ hab hr (hhead a' ha')
    · exact ih htl

/-! ## Lemmas: decoding scanned entries -/

theorem isPrefixOf_iff_pref (p l : Bytes) : p.isPrefixOf l = true ↔ p <+: l :=
  List.isPrefixOf_iff_prefix

theorem encKey_decomp {F : Type} (m : Metric F) :
    encKey m = queryPref m.name m.key ++ utf8Encode (natToDecimal m.timestamp) := by
  unfold encKey queryPref
  rw [← utf8Encode_append]
  simp

theorem key_text_split (A B k : List Char) (kb : Bytes)
    (hp : (queryPref A B).isPrefixOf kb = true)
    (hk : utf8Decode kb = some k) :
    ∃ tail, k = A ++ ':' :: B ++ ':' :: tail := by
  have henc : utf8Encode k = kb := utf8Decode_sound kb.length kb k (le_refl _) hk
  rw [isPrefixOf_iff_pref] at hp
  rw [← henc] at hp
  have hcp : (A ++ ':' :: B ++ [':']) <+: k := utf8Encode_pref _ k hp
  obtain ⟨tail, htail⟩ := hcp
  refine ⟨tail, ?_⟩
  rw [← htail]
  simp

theorem splitColon_parts (A B tail : List Char) (hA : ':' ∉ A) (hB : ':' ∉ B) :
    splitColon (A ++ ':' :: B ++ ':' :: tail) = A :: B :: splitColon tail := by
  rw [show A ++ ':' :: B ++ ':' :: tail = A ++ ':' :: (B ++ ':' :: tail) by simp,
    splitColon_append A _ hA, splitColon_append B tail hB]

theorem decodeEntry_no_panic {F : Type} (fParse : List Char → Option F)
    (A B : List Char) (kb vb : Bytes)
    (hp : (queryPref A B).isPrefixOf kb = true) :
    decodeEntry fParse kb vb ≠ .panic := by
  cases hk : utf8Decode kb with
  | none => simp [decodeEntry, hk]
  | some k =>
    cases hv : utf8Decode vb with
    | none => simp [decodeEntry, hk, hv]
    | some v =>
      obtain ⟨tail, htail⟩ := key_text_split A B k kb hp hk
      have hcount : 2 ≤ k.count ':' := by
        subst htail
        simp [List.count_append, List.count_cons]
        omega
      have hlen : 3 ≤ (splitColon k).length := by
        rw [splitColon_length]
        omega
      have hget : (splitColon k)[2]? = some ((splitColon k).get ⟨2, by omega⟩) :=
        List.getElem?_eq_some_iff.mpr ⟨by omega, rfl⟩
      simp only [decodeEntry, hk, hv, hget]
      split
      · simp
      · split <;> simp

theorem decodeEntry_enc {F : Type} (fParse : List Char → Option F)
    (m : Metric F) (w : List Char)
    (hname : ':' ∉ m.name) (hkey : ':' ∉ m.key)
    (hts : m.timestamp < 2 ^ 64) :
    decodeEntry fParse (encKey m) (utf8Encode w) =
      match fParse w with
      | none => .err .valParse
      | some value => .ok ⟨m.name, m.key, m.timestamp, value⟩ := by
  have hk : utf8Decode (encKey m) =
      some (m.name ++ ':' :: m.key ++ ':' :: natToDecimal m.timestamp) := by
    unfold encKey
    exact utf8Decode_encode _
  have hv : utf8Decode (utf8Encode w) = some w := utf8Decode_encode w
  have hsplit :
      splitColon (m.name ++ ':' :: m.key ++ ':' :: natToDecimal m.timestamp) =
      [m.name, m.key, natToDecimal m.timestamp] := by
    rw [splitColon_parts _ _ _ hname hkey,
      splitColon_no_colon _ (colon_not_mem_natToDecimal _)]
  simp only [decodeEntry, hk, hv, hsplit, List.getElem?_cons_succ,
    List.getElem?_cons_zero, parseU64_natToDecimal _ hts]
  rfl

theorem decodeEntry_fields {F : Type} (fParse : List Char → Option F)
    (A B : List Char) (kb vb : Bytes) (m : Metric F)
    (hA : ':' ∉ A) (hB : ':' ∉ B)
    (hp : (queryPref A B).isPrefixOf kb = true)
    (h : decodeEntry fParse kb vb = .ok m) :
    m.name = A ∧ m.key = B := by
  cases hk : utf8Decode kb with
  | none => simp [decodeEntry, hk] at h
  | some k =>
    cases hv : utf8Decode vb with
    | none => simp [decodeEntry, hk, hv] at h
    | some v =>
      obtain ⟨tail, htail⟩ := key_text_split A B k kb hp hk
      subst htail
      have hsplit := splitColon_parts A B tail hA hB
      cases hs : splitColon tail with
      | nil => exact absurd hs (splitColon_ne_nil tail)
      | cons s0 segs =>
        rw [hs] at hsplit
        simp only [decodeEntry, hk, hv, hsplit, List.getElem?_cons_succ,
          List.getElem?_cons_zero] at h
        cases hts : parseU64 s0 with
        | none => simp [hts] at h
        | some ts =>
          simp only [hts] at h
          cases hw : fParse v with
          | none => simp [hw] at h
          | some value =>
            simp only [hw, EntryResult.ok.injEq] at h
            subst h
            exact ⟨rfl, rfl⟩

theorem decodeEntry_wf_ts {F : Type} (fParse : List Char → Option F)
    (mw : Metric F) (vb : Bytes) (m : Metric F)
    (hname : ':' ∉ mw.name) (hkey : ':' ∉ mw.key)
    (hts : mw.timestamp < 2 ^ 64)
    (h : decodeEntry fParse (encKey mw) vb = .ok m) :
    m.timestamp = mw.timestamp := by
  have hk : utf8Decode (encKey mw) =
      some (mw.name ++ ':' :: mw.key ++ ':' :: natToDecimal mw.timestamp) := by
    unfold encKey
    exact utf8Decode_encode _
  cases hv : utf8Decode vb with
  | none => simp [decodeEntry, hk, hv] at h
  | some v =>
    have hsplit :
        splitColon (mw.name ++ ':' :: mw.key ++ ':' :: natToDecimal mw.timestamp) =
        [mw.name, mw.key, natToDecimal mw.timestamp] := by
      rw [splitColon_parts _ _ _ hname hkey,
        splitColon_no_colon _ (colon_not_mem_natToDecimal _)]
    simp only [decodeEntry, hk, hv, hsplit, List.getElem?_cons_succ,
      List.getElem?_cons_zero, parseU64_natToDecimal _ hts] at h
    cases hw : fParse v with
    | none => simp [hw] at h
    | some value =>
      simp only [hw, EntryResult.ok.injEq] at h
      subst h
      rfl

/-! ## Lemmas: store contents after ingestion -/

theorem getD_of_lt {α : Type} (l : List α) (n : Nat) (d : α)
    (h : n < l.length) : l[n]? = some (l.getD n d) := by
  rw [List.getD_eq_getElem?_getD, List.getElem?_eq_getElem h]
  simp

theorem mem_foldl_addMetric {F : Type} (fToString : F → List Char) :
    ∀ (l : List (Metric F)) (st : Store) (kv : Bytes × Bytes),
    kv ∈ l.foldl (addMetric fToString) st →
    kv ∈ st ∨ ∃ m ∈ l, kv = (encKey m, encVal fToString m) := by
  intro l
  induction l with
  | nil => intro st kv h; exact Or.inl h
  | cons m0 rest ih =>
    intro st kv h
    simp only [List.foldl_cons] at h
    rcases ih (addMetric fToString st m0) kv h with h | ⟨m, hm, rfl⟩
    · rcases mem_put st _ _ kv h with h | h
      · exact Or.inr ⟨m0, List.mem_cons_self _ _, h⟩
      · exact Or.inl h
    · exact Or.inr ⟨m, List.mem_cons_of_mem _ hm, rfl⟩

theorem mem_ingestAll {F : Type} (fToString : F → List Char)
    (l : List (Metric F)) (kv : Bytes × Bytes)
    (h : kv ∈ ingestAll fToString l) :
    ∃ m ∈ l, kv = (encKey m, encVal fToString m) := by
  rcases mem_foldl_addMetric fToString l [] kv h with h | h
  · simp at h
  · exact h

theorem foldl_addMetric_sorted {F : Type} (fToString : F → List Char) :
    ∀ (l : List (Metric F)) (st : Store), StoreSorted st →
    StoreSorted (l.foldl (addMetric fToString) st) := by
  intro l
  induction l with
  | nil => intro st h; exact h
  | cons m0 rest ih =>
    intro st h
    simp only [List.foldl_cons]
    exact ih _ (put_sorted st _ _ h)

theorem ingestAll_sorted {F : Type} (fToString : F → List Char)
    (l : List (Metric F)) : StoreSorted (ingestAll fToString l) :=
  foldl_addMetric_sorted fToString l [] List.Pairwise.nil

theorem queryPref_self {F : Type} (m : Metric F) :
    (queryPref m.name m.key).isPrefixOf (encKey m) = true := by
  rw [isPrefixOf_iff_pref, encKey_decomp]
  exact ⟨_, rfl⟩

theorem queryPref_encKey {F : Type} (m : Metric F) (A B : List Char)
    (hA : ':' ∉ A) (hB : ':' ∉ B) (hn : ':' ∉ m.name) (hk : ':' ∉ m.key)
    (hp : (queryPref A B).isPrefixOf (encKey m) = true) :
    m.name = A ∧ m.key = B := by
  have hdec : utf8Decode (encKey m) =
      some (m.name ++ ':' :: m.key ++ ':' :: natToDecimal m.timestamp) := by
    unfold encKey
    exact utf8Decode_encode _
  obtain ⟨tail, htail⟩ := key_text_split A B _ _ hp hdec
  have h1 := splitColon_parts A B tail hA hB
  have h2 := splitColon_parts m.name m.key (natToDecimal m.timestamp) hn hk
  rw [htail, h1] at h2
  injection h2 with ha h2
  injection h2 with hb _
  exact ⟨ha.symm, hb.symm⟩

theorem forall₂_and_mem {α β : Type} (R : α → β → Prop) :
    ∀ (l : List α) (ms : List β), List.Forall₂ R l ms →
    List.Forall₂ (fun a b => a ∈ l ∧ R a b) l ms := by
  intro l
  induction l with
  | nil =>
    intro ms h
    cases h
    exact List.Forall₂.nil
  | cons a rest ih =>
    intro ms h
    cases h with
    | cons hab htail =>
      refine List.Forall₂.cons ⟨List.mem_cons_self _ _, hab⟩ ?_
      exact (ih _ htail).imp fun a b h => ⟨List.mem_cons_of_mem _ h.1, h.2⟩


/-! ## Claims -/

/-- C8: `ingest` stores every sample under the key whose UTF-8 text is
`metricName`, `':'`, `seriesKey`, `':'` and the timestamp's unpadded
decimal text concatenated in that order, with a value whose UTF-8 text
is the (abstracted) decimal text of the `f64` value; the write touches
no other key, and the timestamp text consists of ASCII digits only. -/
theorem C8_key_encoding {F : Type} (fToString : F → List Char) (st : Store)
    (m : Metric F) :
    (utf8Encode (m.name ++ ':' :: m.key ++ ':' :: natToDecimal m.timestamp),
      utf8Encode (fToString m.value)) ∈ addMetric fToString st m ∧
    (∀ kv ∈ addMetric fToString st m,
      kv = (utf8Encode (m.name ++ ':' :: m.key ++ ':' ::
          natToDecimal m.timestamp),
        utf8Encode (fToString m.value)) ∨ kv ∈ st) ∧
    (∀ c ∈ natToDecimal m.timestamp, isDigitCh c = true) := by
  refine ⟨mem_put_self st _ _, mem_put st _ _, ?_⟩
  intro c hc
  have hall := natToDecimal_all_digits m.timestamp
  rw [List.all_eq_true] at hall
  exact hall c hc

/-- C6: querying a `(metricName, seriesKey)` pair for which no sample
has been ingested succeeds with the empty sequence, never an error. -/
theorem C6_empty_result {F : Type} (fToString : F → List Char)
    (fParse : List Char → Option F) (l : List (Metric F)) (A B : List Char)
    (hA : ':' ∉ A) (hB : ':' ∉ B)
    (hl : ∀ m ∈ l, ':' ∉ m.name ∧ ':' ∉ m.key ∧ (m.name ≠ A ∨ m.key ≠ B)) :
    getMetrics fParse (ingestAll fToString l) A B = .ok [] := by
  unfold getMetrics
  have hscan : scanPref (ingestAll fToString l) (queryPref A B) = [] := by
    rw [scanPref, List.filter_eq_nil_iff]
    intro kv hkv
    obtain ⟨m, hm, rfl⟩ := mem_ingestAll fToString l kv hkv
    simp only [Bool.not_eq_true]
    rw [Bool.eq_false_iff]
    intro hp
    obtain ⟨hn, hk, hne⟩ := hl m hm
    obtain ⟨h1, h2⟩ := queryPref_encKey m A B hA hB hn hk hp
    rcases hne with hne | hne
    · exact hne h1
    · exact hne h2
  rw [hscan]
  rfl

/-- C6 witness: a concrete store holding one `cpu/host1` sample answers
the query for the distinct pair `mem/host2` with the empty sequence. -/
theorem C6_empty_result_witness :
    getMetrics fParseNat
      (ingestAll fToStringNat [⟨chars "cpu", chars "host1", 100, 5⟩])
      (chars "mem") (chars "host2") = .ok [] :=
  C6_empty_result fToStringNat fParseNat
    [⟨chars "cpu", chars "host1", 100, 5⟩] (chars "mem") (chars "host2")
    (by decide) (by decide)
    (by intro m hm; simp at hm; subst hm; refine ⟨by decide, by decide, ?_⟩; left; decide)

/-- C5: ingesting two samples with identical `(name, key, timestamp)`
makes the second write land on the very same store key, so the store
after both ingests equals the store after the second alone (no history
of the first value), and exactly one entry with that key remains. -/
theorem C5_last_write_wins {F : Type} (fToString : F → List Char)
    (st : Store) (s1 s2 : Metric F) (hs : StoreSorted st)
    (hname : s1.name = s2.name) (hkey : s1.key = s2.key)
    (hts : s1.timestamp = s2.timestamp) (hval : s1.value ≠ s2.value) :
    addMetric fToString (addMetric fToString st s1) s2 =
      addMetric fToString st s2 ∧
    (addMetric fToString (addMetric fToString st s1) s2).countP
      (fun kv => kv.1 == encKey s2) = 1 := by
  have hkeq : encKey s1 = encKey s2 := by
    unfold encKey
    rw [hname, hkey, hts]
  have heq : addMetric fToString (addMetric fToString st s1) s2 =
      addMetric fToString st s2 := by
    unfold addMetric
    rw [hkeq, put_put_same]
  refine ⟨heq, ?_⟩
  rw [heq]
  exact countP_put st _ _ hs

/-- C5 witness: two ingests of `(a, b, 1)` with values 5 then 9, from
the empty store. -/
theorem C5_last_write_wins_witness :
    addMetric fToStringNat
      (addMetric fToStringNat [] ⟨chars "a", chars "b", 1, 5⟩)
      ⟨chars "a", chars "b", 1, 9⟩ =
      addMetric fToStringNat [] ⟨chars "a", chars "b", 1, 9⟩ ∧
    (addMetric fToStringNat
      (addMetric fToStringNat [] ⟨chars "a", chars "b", 1, 5⟩)
      ⟨chars "a", chars "b", 1, 9⟩).countP
      (fun kv => kv.1 == encKey (⟨chars "a", chars "b", 1, 9⟩ : Metric Nat)) = 1 :=
  C5_last_write_wins fToStringNat [] ⟨chars "a", chars "b", 1, 5⟩
    ⟨chars "a", chars "b", 1, 9⟩ List.Pairwise.nil rfl rfl rfl (by decide)

/-- C7: if any scanned entry of a query fails to decode, the whole query
returns an error — no partial sequence of previously decoded entries is
produced. -/
theorem C7_decode_aborts {F : Type} (fParse : List Char → Option F)
    (st : Store) (A B : List Char) (kb vb : Bytes) (er : DecodeErr)
    (hmem : (kb, vb) ∈ st)
    (hp : (queryPref A B).isPrefixOf kb = true)
    (herr : decodeEntry fParse kb vb = .err er) :
    ∃ er', getMetrics fParse st A B = .err er' := by
  unfold getMetrics
  apply runScan_err fParse _ ?_ (kb, vb) er ?_ herr
  · intro e he
    exact decodeEntry_no_panic fParse A B e.1 e.2 (List.mem_filter.mp he).2
  · rw [scanPref, List.mem_filter]
    exact ⟨hmem, hp⟩

/-- C7 witness: a store holding one `a:b:…` entry whose value bytes are
not UTF-8 makes `query("a", "b")` fail as a whole. -/
theorem C7_decode_aborts_witness :
    ∃ er', getMetrics fParseNat [(utf8Encode (chars "a:b:1"), [255])]
      (chars "a") (chars "b") = .err er' :=
  C7_decode_aborts fParseNat [(utf8Encode (chars "a:b:1"), [255])]
    (chars "a") (chars "b") (utf8Encode (chars "a:b:1")) [255]
    .valUtf8 (by decide) (by decide) (by decide)

/-- C1: after ingesting a delimiter-free sample `m` into a store built
by ingesting delimiter-free samples whose values render/parse back, the
query for `m`'s pair succeeds and its result contains a metric equal to
`m` (same name, key, timestamp and value).  The value hypotheses record
the `f64` `to_string`/`parse` round trip abstracted by `fToString` /
`fParse`. -/
theorem C1_round_trip {F : Type} (fToString : F → List Char)
    (fParse : List Char → Option F) (l : List (Metric F)) (m : Metric F)
    (hl : ∀ m' ∈ l, ':' ∉ m'.name ∧ ':' ∉ m'.key ∧ m'.timestamp < 2 ^ 64 ∧
      ∃ w, fParse (fToString m'.value) = some w)
    (hn : ':' ∉ m.name) (hk : ':' ∉ m.key) (ht : m.timestamp < 2 ^ 64)
    (hv : fParse (fToString m.value) = some m.value) :
    ∃ ms, getMetrics fParse (addMetric fToString (ingestAll fToString l) m)
      m.name m.key = .ok ms ∧ m ∈ ms := by
  have hentry : ∀ kv ∈ addMetric fToString (ingestAll fToString l) m,
      ∃ m' : Metric F, kv = (encKey m', encVal fToString m') ∧
        ':' ∉ m'.name ∧ ':' ∉ m'.key ∧ m'.timestamp < 2 ^ 64 ∧
        ∃ w, fParse (fToString m'.value) = some w := by
    intro kv hkv
    rcases mem_put _ _ _ kv hkv with h | h
    · exact ⟨m, h, hn, hk, ht, m.value, hv⟩
    · obtain ⟨m', hm', rfl⟩ := mem_ingestAll fToString l kv h
      obtain ⟨h1, h2, h3, h4⟩ := hl m' hm'
      exact ⟨m', rfl, h1, h2, h3, h4⟩
  have hdecOk : ∀ e ∈ scanPref (addMetric fToString (ingestAll fToString l) m)
      (queryPref m.name m.key), ∃ m0, decodeEntry fParse e.1 e.2 = .ok m0 := by
    intro e he
    obtain ⟨m', heq, h1, h2, h3, w, h4⟩ := hentry e (List.mem_filter.mp he).1
    rw [heq]
    rw [show encVal fToString m' = utf8Encode (fToString m'.value) from rfl]
    rw [decodeEntry_enc fParse m' (fToString m'.value) h1 h2 h3, h4]
    exact ⟨_, rfl⟩
  obtain ⟨ms, hms⟩ := runScan_all_ok fParse _ hdecOk
  refine ⟨ms, hms, ?_⟩
  have hmem : (encKey m, encVal fToString m) ∈
      scanPref (addMetric fToString (ingestAll fToString l) m)
        (queryPref m.name m.key) := by
    rw [scanPref, List.mem_filter]
    exact ⟨mem_put_self _ _ _, queryPref_self m⟩
  have hdecm : decodeEntry fParse (encKey m) (encVal fToString m) = .ok m := by
    rw [show encVal fToString m = utf8Encode (fToString m.value) from rfl]
    rw [decodeEntry_enc fParse m (fToString m.value) hn hk ht, hv]
  exact runScan_ok_mem fParse _ ms hms _ _ m hmem hdecm

/-- C1 witness: ingest `(cpu, host1, 100, 5)` into the empty store; the
query returns a sequence containing that sample. -/
theorem C1_round_trip_witness :
    ∃ ms, getMetrics fParseNat
      (addMetric fToStringNat (ingestAll fToStringNat [])
        ⟨chars "cpu", chars "host1", 100, 5⟩)
      (chars "cpu") (chars "host1") = .ok ms ∧
      (⟨chars "cpu", chars "host1", 100, 5⟩ : Metric Nat) ∈ ms :=
  C1_round_trip fToStringNat fParseNat [] ⟨chars "cpu", chars "host1", 100, 5⟩
    (by intro m' hm'; simp at hm') (by decide) (by decide) (by decide)
    (by decide)

/-- C2 as frozen is falsified by a delimiter-bearing series key: with
the store built by ingesting the sample `(a, 5:6, 7, 1)`, the query
`query("a", "5:6")` succeeds and returns a sample whose `seriesKey` is
`"5"`, not the queried `B = "5:6"`. -/
theorem C2_series_isolation_cex :
    getMetrics fParseNat (ingestAll fToStringNat [⟨chars "a", chars "5:6", 7, 1⟩])
      (chars "a") (chars "5:6") =
      .ok [⟨chars "a", chars "5", 6, 1⟩] ∧
    chars "5" ≠ chars "5:6" := by
  constructor
  · decide
  · decide

/-- C2 amended: when the queried `metricName` and `seriesKey` contain no
`':'`, every metric returned by a successful query carries exactly the
queried pair, and the result decodes exactly the store entries whose key
starts with the encoded prefix — for arbitrary store contents. -/
theorem C2_series_isolation {F : Type} (fParse : List Char → Option F)
    (st : Store) (A B : List Char) (ms : List (Metric F))
    (hA : ':' ∉ A) (hB : ':' ∉ B)
    (h : getMetrics fParse st A B = .ok ms) :
    (∀ m ∈ ms, m.name = A ∧ m.key = B) ∧
    List.Forall₂ (fun e m => decodeEntry fParse e.1 e.2 = .ok m)
      (scanPref st (queryPref A B)) ms := by
  have hall := runScan_ok_all fParse _ ms h
  refine ⟨?_, hall⟩
  intro m hm
  obtain ⟨e, he, hdec⟩ := forall₂_mem_right _ _ _ hall m hm
  exact decodeEntry_fields fParse A B e.1 e.2 m hA hB
    (List.mem_filter.mp he).2 hdec

/-- C2 amended witness: a concrete one-sample store and the delimiter-free
query pair `(a, b)`. -/
theorem C2_series_isolation_witness :
    (∀ m ∈ [(⟨chars "a", chars "b", 1, 5⟩ : Metric Nat)],
      m.name = chars "a" ∧ m.key = chars "b") ∧
    List.Forall₂ (fun e m => decodeEntry fParseNat e.1 e.2 = .ok m)
      (scanPref (ingestAll fToStringNat [⟨chars "a", chars "b", 1, 5⟩])
        (queryPref (chars "a") (chars "b")))
      [⟨chars "a", chars "b", 1, 5⟩] :=
  C2_series_isolation fParseNat
    (ingestAll fToStringNat [⟨chars "a", chars "b", 1, 5⟩])
    (chars "a") (chars "b") [⟨chars "a", chars "b", 1, 5⟩]
    (by decide) (by decide) (by decide)

/-- C3 as frozen is falsified by a scanned key splitting into more than
three parts: the stored pair `("a:b:1:x", "2")` is scanned by
`query("a", "b")`, its key text splits into four parts, yet the query
silently succeeds instead of failing with a decode error. -/
theorem C3_decode_errors_cex :
    (splitColon (chars "a:b:1:x")).length ≠ 3 ∧
    getMetrics fParseNat [(utf8Encode (chars "a:b:1:x"), utf8Encode (chars "2"))]
      (chars "a") (chars "b") = .ok [⟨chars "a", chars "b", 1, 2⟩] := by
  constructor
  · decide
  · decide

/-- C3 amended: decoding a scanned `(key, value)` pair never panics, and
fails with a decode error exactly when the key bytes or the value bytes
are not valid UTF-8, or the third `':'`-separated field of the key text
does not parse as `u64`, or the value text does not parse as `f64`; a
key splitting into more than three parts is not rejected for its part
count (only its first three parts are used, cf. C10). -/
theorem C3_decode_errors {F : Type} (fParse : List Char → Option F)
    (A B : List Char) (kb vb : Bytes)
    (hp : (queryPref A B).isPrefixOf kb = true) :
    decodeEntry fParse kb vb ≠ .panic ∧
    ((∃ e, decodeEntry fParse kb vb = .err e) ↔
      utf8Decode kb = none ∨
      ∃ k, utf8Decode kb = some k ∧
        (utf8Decode vb = none ∨
          ∃ v, utf8Decode vb = some v ∧
            (parseU64 ((splitColon k).getD 2 []) = none ∨
              ∃ ts, parseU64 ((splitColon k).getD 2 []) = some ts ∧
                fParse v = none))) := by
  refine ⟨decodeEntry_no_panic fParse A B kb vb hp, ?_⟩
  cases hk : utf8Decode kb with
  | none => simp [decodeEntry, hk]
  | some k =>
    obtain ⟨tail, htail⟩ := key_text_split A B k kb hp hk
    have hcount : 2 ≤ k.count ':' := by
      subst htail
      simp [List.count_append, List.count_cons]
      omega
    have hlen : 3 ≤ (splitColon k).length := by
      rw [splitColon_length]
      omega
    have hget : (splitColon k)[2]? = some ((splitColon k).getD 2 []) :=
      getD_of_lt _ 2 [] (by omega)
    generalize hgen : (splitColon k).getD 2 [] = p2 at hget ⊢
    cases hv : utf8Decode vb with
    | none => simp [decodeEntry, hk, hv]
    | some v =>
      cases hts : parseU64 p2 with
      | none => simp [decodeEntry, hk, hv, hget, hts]
      | some ts =>
        cases hw : fParse v with
        | none => simp [decodeEntry, hk, hv, hget, hts, hw]
        | some w => simp [decodeEntry, hk, hv, hget, hts, hw]

/-- C3 amended witness: the scanned pair `("a:b:x:1", "2")` of
`query("a", "b")` does not panic, and errs because the third field `"x"`
does not parse as `u64`. -/
theorem C3_decode_errors_witness :
    (decodeEntry fParseNat (utf8Encode (chars "a:b:x:1"))
        (utf8Encode (chars "2")) ≠ .panic ∧
      ((∃ e, decodeEntry fParseNat (utf8Encode (chars "a:b:x:1"))
          (utf8Encode (chars "2")) = .err e) ↔
        utf8Decode (utf8Encode (chars "a:b:x:1")) = none ∨
        ∃ k, utf8Decode (utf8Encode (chars "a:b:x:1")) = some k ∧
          (utf8Decode (utf8Encode (chars "2")) = none ∨
            ∃ v, utf8Decode (utf8Encode (chars "2")) = some v ∧
              (parseU64 ((splitColon k).getD 2 []) = none ∨
                ∃ ts, parseU64 ((splitColon k).getD 2 []) = some ts ∧
                  fParseNat v = none)))) ∧
    decodeEntry fParseNat (utf8Encode (chars "a:b:x:1"))
      (utf8Encode (chars "2")) = .err .tsParse :=
  ⟨C3_decode_errors fParseNat (chars "a") (chars "b")
    (utf8Encode (chars "a:b:x:1")) (utf8Encode (chars "2")) (by decide),
    by decide⟩

/-- C10: a scanned key whose text splits into more than three parts is
not rejected for its part count — the metric is built from parts 0, 1
and the `u64` parse of part 2, the remaining parts are discarded, and
(with the value text parsing fine) the decode errs exactly when part 2
fails to parse as `u64`. -/
theorem C10_extra_parts {F : Type} (fParse : List Char → Option F)
    (kb vb : Bytes) (k v : List Char) (w : F)
    (hk : utf8Decode kb = some k) (hv : utf8Decode vb = some v)
    (hlen : 3 < (splitColon k).length) (hw : fParse v = some w) :
    (∀ ts, parseU64 ((splitColon k).getD 2 []) = some ts →
      decodeEntry fParse kb vb =
        .ok ⟨(splitColon k).getD 0 [], (splitColon k).getD 1 [], ts, w⟩) ∧
    (parseU64 ((splitColon k).getD 2 []) = none →
      decodeEntry fParse kb vb = .err .tsParse) := by
  have hget : (splitColon k)[2]? = some ((splitColon k).getD 2 []) :=
    getD_of_lt _ 2 [] (by omega)
  generalize hgen : (splitColon k).getD 2 [] = p2 at hget ⊢
  constructor
  · intro ts hts
    simp only [decodeEntry, hk, hv, hget, hts, hw]
  · intro hts
    simp only [decodeEntry, hk, hv, hget, hts]

/-- C10 witness: ingesting the sample `(a, b:5, 7, 3)` produces the
four-part key `a:b:5:7`; `query("a", "b")` scans it and returns the
metric `(a, b, 5, 3)` built from the first three parts. -/
theorem C10_extra_parts_witness :
    (3 < (splitColon (chars "a:b:5:7")).length ∧
      decodeEntry fParseNat (utf8Encode (chars "a:b:5:7"))
        (utf8Encode (chars "3")) =
        .ok ⟨chars "a", chars "b", 5, 3⟩) ∧
    getMetrics fParseNat (ingestAll fToStringNat [⟨chars "a", chars "b:5", 7, 3⟩])
      (chars "a") (chars "b") = .ok [⟨chars "a", chars "b", 5, 3⟩] := by
  refine ⟨⟨by decide, ?_⟩, by decide⟩
  exact (C10_extra_parts fParseNat (utf8Encode (chars "a:b:5:7"))
    (utf8Encode (chars "3")) (chars "a:b:5:7") (chars "3") 3
    (by decide) (by decide) (by decide) (by decide)).1 5 (by decide)

/-- C4: on a sorted store whose keys are all encodings of delimiter-free
samples, a successful query returns its metrics ordered by strict
byte-lexicographic order of the timestamps' unpadded decimal texts (not
by numeric timestamp order; see the witness, where the timestamp-10
sample precedes the timestamp-9 sample). -/
theorem C4_scan_order {F : Type} (fParse : List Char → Option F)
    (st : Store) (A B : List Char) (ms : List (Metric F))
    (hs : StoreSorted st)
    (hwf : ∀ kv ∈ st, ∃ mw : Metric F, kv.1 = encKey mw ∧ ':' ∉ mw.name ∧
      ':' ∉ mw.key ∧ mw.timestamp < 2 ^ 64)
    (hA : ':' ∉ A) (hB : ':' ∉ B)
    (h : getMetrics fParse st A B = .ok ms) :
    ms.Pairwise (fun m1 m2 =>
      bytesLt (utf8Encode (natToDecimal m1.timestamp))
        (utf8Encode (natToDecimal m2.timestamp)) = true) := by
  have hall := forall₂_and_mem _ _ _ (runScan_ok_all fParse _ ms h)
  have hsorted : (scanPref st (queryPref A B)).Pairwise
      (fun a b => bytesLt a.1 b.1 = true) := hs.filter _
  refine forall₂_pairwise _ _ _ ?_ _ _ hall hsorted
  rintro a b m1 m2 ⟨ha, hdeca⟩ ⟨hb, hdecb⟩ hP
  have hkey : ∀ e : Bytes × Bytes, e ∈ scanPref st (queryPref A B) →
      ∀ m : Metric F, decodeEntry fParse e.1 e.2 = .ok m →
      e.1 = queryPref A B ++ utf8Encode (natToDecimal m.timestamp) := by
    intro e he m hdec
    obtain ⟨hest, hp⟩ := List.mem_filter.mp he
    obtain ⟨mw, hkeq, hn, hk, ht⟩ := hwf e hest
    rw [hkeq] at hp hdec
    obtain ⟨hna, hkb⟩ := queryPref_encKey mw A B hA hB hn hk hp
    have hts := decodeEntry_wf_ts fParse mw e.2 m hn hk ht hdec
    rw [hkeq, encKey_decomp mw, hna, hkb, hts]
  have he1 := hkey a ha m1 hdeca
  have he2 := hkey b hb m2 hdecb
  rw [he1, he2, bytesLt_append_cancel] at hP
  exact hP

/-- C4 witness: ingesting timestamps 9 then 10 into the `cpu/h1` series
makes the query return the timestamp-10 sample before the timestamp-9
sample (`"10"` precedes `"9"` in byte order), and the returned sequence
satisfies the general byte-lexicographic ordering property. -/
theorem C4_scan_order_witness :
    getMetrics fParseNat
      (ingestAll fToStringNat
        [⟨chars "cpu", chars "h1", 9, 1⟩, ⟨chars "cpu", chars "h1", 10, 2⟩])
      (chars "cpu") (chars "h1") =
      .ok [⟨chars "cpu", chars "h1", 10, 2⟩, ⟨chars "cpu", chars "h1", 9, 1⟩] ∧
    ([⟨chars "cpu", chars "h1", 10, 2⟩, ⟨chars "cpu", chars "h1", 9, 1⟩] :
        List (Metric Nat)).Pairwise (fun m1 m2 =>
      bytesLt (utf8Encode (natToDecimal m1.timestamp))
        (utf8Encode (natToDecimal m2.timestamp)) = true) := by
  refine ⟨by decide, ?_⟩
  refine C4_scan_order fParseNat
    (ingestAll fToStringNat
      [⟨chars "cpu", chars "h1", 9, 1⟩, ⟨chars "cpu", chars "h1", 10, 2⟩])
    (chars "cpu") (chars "h1") _ ?_ ?_ (by decide) (by decide) (by decide)
  · unfold StoreSorted
    decide
  · intro kv hkv
    obtain ⟨m, hm, rfl⟩ := mem_ingestAll fToStringNat _ kv hkv
    simp only [List.mem_cons, List.not_mem_nil, or_false] at hm
    rcases hm with rfl | rfl
    · exact ⟨⟨chars "cpu", chars "h1", 9, 1⟩, rfl, by decide, by decide,
        by decide⟩
    · exact ⟨⟨chars "cpu", chars "h1", 10, 2⟩, rfl, by decide, by decide,
        by decide⟩

/-- C9: for a database path with a parent directory, bootstrap succeeds
when creation is permitted — and calling it again is a no-op that
succeeds again (idempotence, covering the already-existing case); a
denied directory yields the permission-denied error; any other
directory-creation failure yields a different message; and the two
failure messages are distinct. -/
theorem C9_dir_bootstrap (fs : FsState) (p : List Char) (db : PathM)
    (hparent : db.parent = some p) :
    (p ∉ fs.denied → p ∉ fs.broken →
      ∃ fs1, createDbDir fs db = (fs1, .ok ()) ∧
        createDbDir fs1 db = (fs1, .ok ()) ∧ p ∈ fs1.existing) ∧
    (p ∈ fs.denied →
      createDbDir fs db =
        (fs, .error (chars "Permission denied to create the data directory"))) ∧
    (p ∉ fs.denied → p ∈ fs.broken →
      createDbDir fs db =
        (fs, .error (chars "Miscellaneous error creating the data directory"))) ∧
    chars "Permission denied to create the data directory" ≠
      chars "Miscellaneous error creating the data directory" := by
  refine ⟨?_, ?_, ?_, by decide⟩
  · intro hd hb
    by_cases he : p ∈ fs.existing
    · refine ⟨fs, ?_, ?_, he⟩
      · simp [createDbDir, hparent, createDirAll, hd, hb, he]
      · simp [createDbDir, hparent, createDirAll, hd, hb, he]
    · refine ⟨{ fs with existing := p :: fs.existing }, ?_, ?_, ?_⟩
      · simp [createDbDir, hparent, createDirAll, hd, hb, he]
      · simp [createDbDir, hparent, createDirAll, hd, hb]
      · exact List.mem_cons_self _ _
  · intro hd
    simp [createDbDir, hparent, createDirAll, hd]
  · intro hd hb
    simp [createDbDir, hparent, createDirAll, hd, hb]

/-- C9 witness: the empty filesystem and the path whose parent is `d`. -/
theorem C9_dir_bootstrap_witness :
    (chars "d" ∉ FsState.denied ⟨[], [], []⟩ →
      chars "d" ∉ FsState.broken ⟨[], [], []⟩ →
      ∃ fs1, createDbDir ⟨[], [], []⟩ ⟨some (chars "d")⟩ = (fs1, .ok ()) ∧
        createDbDir fs1 ⟨some (chars "d")⟩ = (fs1, .ok ()) ∧
        chars "d" ∈ fs1.existing) ∧
    (chars "d" ∈ FsState.denied ⟨[], [], []⟩ →
      createDbDir ⟨[], [], []⟩ ⟨some (chars "d")⟩ =
        (⟨[], [], []⟩,
          .error (chars "Permission denied to create the data directory"))) ∧
    (chars "d" ∉ FsState.denied ⟨[], [], []⟩ →
      chars "d" ∈ FsState.broken ⟨[], [], []⟩ →
      createDbDir ⟨[], [], []⟩ ⟨some (chars "d")⟩ =
        (⟨[], [], []⟩,
          .error (chars "Miscellaneous error creating the data directory"))) ∧
    chars "Permission denied to create the data directory" ≠
      chars "Miscellaneous error creating the data directory" :=
  C9_dir_bootstrap ⟨[], [], []⟩ (chars "d") ⟨some (chars "d")⟩ rfl
